import Mathlib

/-!
Verification of the markdown chunker, section-metadata extractor, hybrid
search-result fusion and RAG-query validation of `src/crawl4ai_mcp.py`
(functions `smart_chunk_markdown`, `extract_section_info`, and the hybrid
branch plus input validation of `perform_rag_query`).

Modelling conventions (shallow embedding of the Python source):
* Python strings are `List Char`; `str.strip`, `str.rfind`, slicing and the
  `in` operator are modelled by executable functions below.
* Python floats are modelled as exact rationals (`Rat`); the literals `1.2`,
  `0.5` and `0.3` are `6/5`, `1/2` and `3/10`.
* Dictionary fields that the code reads with `d.get(k)` are `Option`-valued;
  a `d[k]` access on a possibly-missing key is a fallible operation in
  `Except PyErr`.  A `KeyError`/`TypeError` escaping the fusion block is an
  `Except.error` result of `fuse`.
* Scalar Python values stored in result rows are the inductive `PyVal`;
  Python `==` and truthiness are `pyEq` / `pyTruthy`.
-/

/-- Scalar Python values that can sit in a search-result row field. -/
inductive PyVal where
  | null
  | int (n : Int)
  | float (q : Rat)
  | str (s : String)
deriving DecidableEq, Repr

/-- Python `==` on `PyVal` (numeric values compare across `int`/`float`). -/
def pyEq : PyVal → PyVal → Bool
  | .null, .null => true
  | .int a, .int b => decide (a = b)
  | .int a, .float q => decide ((a : Rat) = q)
  | .float q, .int a => decide (q = (a : Rat))
  | .float a, .float b => decide (a = b)
  | .str a, .str b => decide (a = b)
  | _, _ => false

/-- Python truthiness of a `PyVal` (`None`, `0`, `0.0` and `""` are falsy). -/
def pyTruthy : PyVal → Bool
  | .null => false
  | .int n => decide (n ≠ 0)
  | .float q => decide (q ≠ 0)
  | .str s => decide (s ≠ "")

/-- Python whitespace (the ASCII characters recognised by `str.strip` and
`str.split`): space, tab, newline, carriage return, vertical tab, form feed. -/
def pyIsSpace (c : Char) : Bool :=
  c = ' ' || c = '\t' || c = '\n' || c = '\r' || c = Char.ofNat 11 || c = Char.ofNat 12

/-- Python `s.strip()`: drop leading and trailing whitespace. -/
def pyStrip (s : List Char) : List Char :=
  ((s.dropWhile pyIsSpace).reverse.dropWhile pyIsSpace).reverse

/-- Python slice `s[a:b]` for natural indices. -/
def pySlice (s : List Char) (a b : Nat) : List Char :=
  (s.take b).drop a

/-- Does `pat` occur in `s` starting at index `i`? -/
def matchesAt (s pat : List Char) (i : Nat) : Bool :=
  pat.isPrefixOf (s.drop i)

/-- Python `s.rfind(pat)`: the largest index at which `pat` occurs
(`none` models the `-1` returned when there is no occurrence). -/
def pyRfind (s pat : List Char) : Option Nat :=
  ((List.range (s.length + 1)).filter (fun i => matchesAt s pat i)).getLast?

/-- The triple-backtick code-fence marker searched by the chunker. -/
def fencePat : List Char := [Char.ofNat 96, Char.ofNat 96, Char.ofNat 96]

/-- The blank-line paragraph-break marker. -/
def paraPat : List Char := ['\n', '\n']

/-- The sentence-boundary marker. -/
def sentencePat : List Char := ['.', ' ']

/-- The guard `i > chunk_size * 0.3` of `smart_chunk_markdown`, with the
float literal `0.3` read as the exact rational `3/10`. -/
def past30 (i cs : Nat) : Bool :=
  decide (3 * cs < 10 * i)

/-- The `elif '\n\n' in chunk / elif '. ' in chunk` part of the split-point
choice of `smart_chunk_markdown` (reached only when the code-fence branch
did not fire).  Returns the offset of the split point inside the window. -/
def splitPointPara (chunk : List Char) (cs : Nat) : Nat :=
  match pyRfind chunk paraPat with
  | some lb => if past30 lb cs then lb else cs
  | none =>
    match pyRfind chunk sentencePat with
    | some lp => if past30 lp cs then lp + 1 else cs
    | none => cs

/-- The split-point choice of one `smart_chunk_markdown` iteration: the
offset `end - start` selected for the window `chunk`, following the
`if code_block ... elif '\n\n' ... elif '. ' ...` chain of the source. -/
def splitPoint (chunk : List Char) (cs : Nat) : Nat :=
  match pyRfind chunk fencePat with
  | some cb => if past30 cb cs then cb else splitPointPara chunk cs
  | none => splitPointPara chunk cs

/-- The value of `end` computed by one loop iteration of
`smart_chunk_markdown` from scan position `start` (for the non-final case
`start + chunk_size < len(text)`); the loop then continues at this position. -/
def nextEnd (text : List Char) (cs start : Nat) : Nat :=
  start + splitPoint (pySlice text start (start + cs)) cs

/-- Fuelled transcription of the `while start < text_length` loop of
`smart_chunk_markdown`.  Each iteration consumes one unit of fuel; with
`chunk_size ≥ 1` every iteration strictly advances `start`, so fuel
`text.length + 1` runs the loop to completion. -/
def smartChunkGo (text : List Char) (cs : Nat) : Nat → Nat → List (List Char)
  | 0, _ => []
  | fuel + 1, start =>
    if start < text.length then
      if text.length ≤ start + cs then
        [pyStrip (text.drop start)]
      else
        let e := nextEnd text cs start
        let c := pyStrip (pySlice text start e)
        (if c = [] then [] else [c]) ++ smartChunkGo text cs fuel e
    else []

/-- `smart_chunk_markdown(text, chunk_size)` of `src/crawl4ai_mcp.py`. -/
def smart_chunk_markdown (text : List Char) (cs : Nat) : List (List Char) :=
  smartChunkGo text cs (text.length + 1) 0

/-- The maximal run of non-newline characters at the head of `s`
(what the greedy regex group `(.+)` matches, `$` following immediately). -/
def takeLine (s : List Char) : List Char :=
  s.takeWhile (fun c => c ≠ '\n')

/-- Backtracking of `\s+` in `^(#+)\s+(.+)$` when the string ends right
after the whitespace run `ws`: the engine gives characters back to `(.+)`
one at a time, trying the suffixes of `ws` of length `1 ≤ j ≤ |ws| - 1`
from shortest to longest.  The first suffix starting with a non-newline
character yields a match whose `(.+)` group is that suffix's maximal
non-newline prefix (`(.+)` cannot cross a newline, and the `MULTILINE`
`$` matches right before it). -/
def wsSuffixText (ws : List Char) : Option (List Char) :=
  ((List.range ws.length).drop 1).findSome? (fun j =>
    match ws.drop (ws.length - j) with
    | c :: cs => if c ≠ '\n' then some (takeLine (c :: cs)) else none
    | [] => none)

/-- Left-to-right scan of `re.findall(r'^(#+)\s+(.+)$', chunk, re.MULTILINE)`:
walks the string carrying an "at line start" flag, attempts the anchored
pattern at each `#` that sits at a line start, and resumes after the end of
each (non-overlapping) match.  Fuel `length + 1` suffices because every
step consumes at least one character. -/
def hdrScanF : Nat → List Char → Bool → List (List Char × List Char)
  | 0, _, _ => []
  | _, [], _ => []
  | fuel + 1, c :: rest, atStart =>
    if atStart && c = '#' then
      let hashes := (c :: rest).takeWhile (fun x => x = '#')
      let afterH := (c :: rest).dropWhile (fun x => x = '#')
      let ws := afterH.takeWhile pyIsSpace
      let afterW := afterH.dropWhile pyIsSpace
      if ws = [] then
        hdrScanF fuel rest false
      else
        match afterW with
        | _ :: _ =>
          let txt := takeLine afterW
          (hashes, txt) :: hdrScanF fuel (afterW.drop txt.length) false
        | [] =>
          match wsSuffixText ws with
          | some suf => [(hashes, suf)]
          | none => []
    else
      hdrScanF fuel rest (c = '\n')

/-- `re.findall(r'^(#+)\s+(.+)$', s, re.MULTILINE)` as used by
`extract_section_info`. -/
def findallHeaders (s : List Char) : List (List Char × List Char) :=
  hdrScanF (s.length + 1) s true

/-- Python `s.split()`: split on whitespace runs, discarding empty pieces. -/
def pyWords (s : List Char) : List (List Char) :=
  (s.splitOnP pyIsSpace).filter (fun w => w ≠ [])

/-- The dictionary returned by `extract_section_info`. -/
structure SectionInfo where
  headers : List Char
  char_count : Nat
  word_count : Nat
deriving DecidableEq, Repr

/-- `extract_section_info(chunk)` of `src/crawl4ai_mcp.py`. -/
def extract_section_info (chunk : List Char) : SectionInfo :=
  { headers := List.intercalate [';', ' ']
      ((findallHeaders chunk).map (fun ht => ht.1 ++ ' ' :: ht.2))
  , char_count := chunk.length
  , word_count := (pyWords chunk).length }

/-- Python exceptions that can escape the fusion block of
`perform_rag_query` (caught outside, aborting hybrid fusion). -/
inductive PyErr where
  | keyError
  | typeError
deriving DecidableEq, Repr

/-- The fields of a search-result row that fusion copies but never
inspects: `url`, `chunk_number`, `content`, `metadata`, `source_id`. -/
structure HitRest where
  url : PyVal
  chunk_number : PyVal
  content : PyVal
  metadata : PyVal
  source_id : PyVal
deriving DecidableEq, Repr

/-- A vector-search result row (also the shape of every fused item): a dict
whose `id` and `similarity` keys may be absent (read with `.get`). -/
structure SearchHit where
  id? : Option PyVal
  similarity? : Option PyVal
  rest : HitRest
deriving DecidableEq, Repr

/-- A keyword-search result row: the `select` clause provides `id, url,
chunk_number, content, metadata, source_id` (no similarity); the code reads
`kr['id']` with a bare subscript, so a missing `id` key raises `KeyError`. -/
structure KeyHit where
  id? : Option PyVal
  rest : HitRest
deriving DecidableEq, Repr

/-- Python `d.get(k)`: a missing key yields `None`. -/
def dictGet (v : Option PyVal) : PyVal :=
  v.getD .null

/-- `vr.get('id')` of a (vector or fused) search hit. -/
def vrId (v : SearchHit) : PyVal :=
  dictGet v.id?

/-- `vr.get('similarity', 0)` (default is the Python int `0`). -/
def simVal (v : SearchHit) : PyVal :=
  v.similarity?.getD (.int 0)

/-- Numeric reading of a Python value, as exact rationals. -/
def pyToRat : PyVal → Option Rat
  | .int n => some (n : Rat)
  | .float q => some q
  | _ => none

/-- `min(1.0, v * 1.2)`: multiplying a non-numeric similarity by the float
`1.2` raises `TypeError`; otherwise boost and clamp. -/
def boostSim (v : PyVal) : Except PyErr Rat :=
  match pyToRat v with
  | some q => .ok (min 1 (q * (6/5)))
  | none => .error .typeError

/-- `kr['id']`: bare subscript, raising `KeyError` on a missing key. -/
def getKid (k : KeyHit) : Except PyErr PyVal :=
  match k.id? with
  | some v => .ok v
  | none => .error .keyError

/-- `{r.get('id') for r in vector_results if r.get('id')}`: the set of
truthy vector ids (modelled as a list probed with `pyMem`). -/
def vector_ids (vs : List SearchHit) : List PyVal :=
  (vs.map vrId).filter pyTruthy

/-- Python `x in s` for the id sets, using Python equality. -/
def pyMem (x : PyVal) (l : List PyVal) : Bool :=
  l.any (fun y => pyEq x y)

/-- The dict built for a keyword-only match: all keyword fields plus
`'similarity': 0.5`. -/
def mkKeyHit (kid : PyVal) (k : KeyHit) : SearchHit :=
  ⟨some kid, some (.float (1/2)), k.rest⟩

/-- The in-place update `vr['similarity'] = min(1.0, ...)` applied to the
vector record appended by the intersection pass.  (The mutated dict is
only ever re-read through `combined_results`: the vector-only pass skips
it because its id is already in `seen_ids`.) -/
def boostRecord (v : SearchHit) (r : Rat) : SearchHit :=
  { v with similarity? := some (.float r) }

/-- Intersection pass of the hybrid combination in `perform_rag_query`:
for each keyword hit whose id is among the truthy vector ids and unseen,
append the first matching vector record with boosted similarity.  State is
`(combined_results, seen_ids)`. -/
def pass1 (vs : List SearchHit) :
    List KeyHit → List SearchHit → List PyVal → Except PyErr (List SearchHit × List PyVal)
  | [], comb, seen => .ok (comb, seen)
  | kr :: rest, comb, seen =>
    match kr.id? with
    | none => .error .keyError
    | some kid =>
      if pyMem kid (vector_ids vs) && !pyMem kid seen then
        match vs.find? (fun vr => pyEq (vrId vr) kid) with
        | some vr =>
          match boostSim (simVal vr) with
          | .error e => .error e
          | .ok r => pass1 vs rest (comb ++ [boostRecord vr r]) (seen ++ [kid])
        | none => pass1 vs rest comb seen
      else pass1 vs rest comb seen

/-- Vector-only pass: append vector hits with truthy, unseen ids while the
accumulator is below `match_count`. -/
def pass2 (m : Nat) : List SearchHit → List SearchHit → List PyVal → List SearchHit × List PyVal
  | [], comb, seen => (comb, seen)
  | vr :: rest, comb, seen =>
    if pyTruthy (vrId vr) && !pyMem (vrId vr) seen && decide (comb.length < m) then
      pass2 m rest (comb ++ [vr]) (seen ++ [vrId vr])
    else pass2 m rest comb seen

/-- Keyword-only pass: append remaining keyword hits (as fresh dicts with
similarity `0.5`) while below `match_count`; `kr['id']` can raise. -/
def pass3 (m : Nat) : List KeyHit → List SearchHit → List PyVal → Except PyErr (List SearchHit × List PyVal)
  | [], comb, seen => .ok (comb, seen)
  | kr :: rest, comb, seen =>
    match kr.id? with
    | none => .error .keyError
    | some kid =>
      if !pyMem kid seen && decide (comb.length < m) then
        pass3 m rest (comb ++ [mkKeyHit kid kr]) (seen ++ [kid])
      else pass3 m rest comb seen

/-- The hybrid result combination of `perform_rag_query` (lines 1664-1704):
intersection pass, vector-only pass, keyword-only pass, then the final
safety slice `combined_results[:match_count]`. -/
def fuse (vs : List SearchHit) (ks : List KeyHit) (m : Nat) : Except PyErr (List SearchHit) :=
  match pass1 vs ks [] [] with
  | .error e => .error e
  | .ok (c1, s1) =>
    match pass2 m vs c1 s1 with
    | (c2, s2) =>
      match pass3 m ks c2 s2 with
      | .error e => .error e
      | .ok (c3, _) => .ok (c3.take m)

/-- The input-validation check `if not query or not query.strip()` of
`perform_rag_query`, which returns a validation failure when true. -/
def query_is_rejected (query : List Char) : Bool :=
  query.isEmpty || (pyStrip query).isEmpty

/-- The `match_count` normalisation of `perform_rag_query`:
`if match_count <= 0: match_count = 5 elif match_count > 50: match_count = 50`. -/
def clamp_match_count (m : Int) : Int :=
  if m ≤ 0 then 5 else if 50 < m then 50 else m

/-- Classifier used to reason about `pyEq`: Python `==` on the modelled
values is equality of this classification (numbers by rational value). -/
def pyCls : PyVal → Option (Rat ⊕ String)
  | .null => Option.none
  | .int n => some (Sum.inl (n : Rat))
  | .float q => some (Sum.inl q)
  | .str s => some (Sum.inr s)

/-- Truthiness expressed on the classification. -/
def clsTruthy : Option (Rat ⊕ String) → Bool
  | Option.none => false
  | some (Sum.inl q) => decide (q ≠ 0)
  | some (Sum.inr s) => decide (s ≠ "")

/-- A chunk with no leading and no trailing whitespace. -/
def Stripped (c : List Char) : Prop :=
  (∀ a ∈ c.head?, pyIsSpace a = false) ∧ (∀ a ∈ c.getLast?, pyIsSpace a = false)

/-- Invariant tying `combined_results` to `seen_ids`: ids of collected hits
are exactly the seen ids (up to Python equality). -/
def SeenCombInv (comb : List SearchHit) (seen : List PyVal) : Prop :=
  (∀ o ∈ comb, pyMem (vrId o) seen = true) ∧
  (∀ x ∈ seen, ∃ o ∈ comb, pyEq (vrId o) x = true)

/-- Pairwise-distinct ids (under Python equality) in a result list. -/
def DistinctIds (comb : List SearchHit) : Prop :=
  comb.Pairwise (fun a b => pyEq (vrId a) (vrId b) = false)

/-- Shape of an item appended by the intersection pass: a vector record
with boosted similarity, whose id matches some keyword hit's id. -/
def Pass1Item (vs : List SearchHit) (ks : List KeyHit) (o : SearchHit) : Prop :=
  ∃ vr ∈ vs, ∃ kid r, (∃ kr ∈ ks, kr.id? = some kid) ∧ pyEq (vrId vr) kid = true ∧
    pyMem kid (vector_ids vs) = true ∧ boostSim (simVal vr) = .ok r ∧ o = boostRecord vr r

/-- A (truthy) id value present in both input lists. -/
def CommonId (vs : List SearchHit) (ks : List KeyHit) (x : PyVal) : Prop :=
  pyTruthy x = true ∧ (∃ vr ∈ vs, pyEq (vrId vr) x = true) ∧
    (∃ kr ∈ ks, ∃ kid, kr.id? = some kid ∧ pyEq kid x = true)

/-- A fused item carrying an id present in both input lists. -/
def SharedHit (vs : List SearchHit) (ks : List KeyHit) (o : SearchHit) : Prop :=
  ∃ x, CommonId vs ks x ∧ pyEq (vrId o) x = true

/-- Concrete payloads for the concrete evaluations below. -/
def restA : HitRest := ⟨.str "a.com", .int 0, .str "alpha", .null, .str "a"⟩

def restB : HitRest := ⟨.str "b.com", .int 1, .str "beta", .null, .str "b"⟩

def restC : HitRest := ⟨.str "c.com", .int 2, .str "gamma", .null, .str "c"⟩

def restD : HitRest := ⟨.str "d.com", .int 3, .str "delta", .null, .str "d"⟩

/-- The vector side of the spec's fusion scenario. -/
def scenVec : List SearchHit :=
  [⟨some (.int 1), some (.float (4/5)), restA⟩, ⟨some (.int 2), some (.float (3/5)), restB⟩]

/-- The keyword side of the spec's fusion scenario. -/
def scenKey : List KeyHit :=
  [⟨some (.int 1), restC⟩, ⟨some (.int 3), restD⟩]

/-- Vector hits sharing the falsy id `0` with the keyword side. -/
def cexVecC1 : List SearchHit :=
  [⟨some (.int 0), some (.float (4/5)), restA⟩, ⟨some (.int 5), some (.float (7/10)), restB⟩]

/-- Keyword hit with the falsy id `0`. -/
def cexKeyC1 : List KeyHit := [⟨some (.int 0), restC⟩]

/-- One vector hit with the falsy id `0` and numeric similarity. -/
def cexVecC2 : List SearchHit := [⟨some (.int 0), some (.float (4/5)), restA⟩]

/-- One keyword hit with the same falsy id `0`. -/
def cexKeyC2 : List KeyHit := [⟨some (.int 0), restB⟩]

/-- A well-formed vector hit. -/
def cexVecC4 : List SearchHit := [⟨some (.int 1), some (.float (1/2)), restA⟩]

/-- A keyword hit whose dict is missing the `id` key. -/
def cexKeyC4 : List KeyHit := [⟨Option.none, restB⟩]

/-- Vector hits whose ids are `None`, missing, `0` and `""`. -/
def falsyVecs : List SearchHit :=
  [⟨some .null, some (.int 1), restA⟩, ⟨Option.none, some (.int 1), restB⟩,
   ⟨some (.int 0), some (.int 1), restC⟩, ⟨some (.str ""), some (.int 1), restD⟩]

/-- A keyword hit with the falsy id `""`. -/
def falsyKey : List KeyHit := [⟨some (.str ""), restA⟩]

theorem pyEq_eq_decide_cls (a b : PyVal) : pyEq a b = decide (pyCls a = pyCls b) := by
  cases a <;> cases b <;> simp [pyEq, pyCls]

theorem pyEq_refl (a : PyVal) : pyEq a a = true := by
  simp [pyEq_eq_decide_cls]

theorem pyEq_symm {a b : PyVal} (h : pyEq a b = true) : pyEq b a = true := by
  simp only [pyEq_eq_decide_cls, decide_eq_true_eq] at *
  exact h.symm

theorem pyEq_trans {a b c : PyVal} (h1 : pyEq a b = true) (h2 : pyEq b c = true) :
    pyEq a c = true := by
  simp only [pyEq_eq_decide_cls, decide_eq_true_eq] at *
  exact h1.trans h2

theorem pyTruthy_eq_cls (a : PyVal) : pyTruthy a = clsTruthy (pyCls a) := by
  cases a <;> simp [pyTruthy, pyCls, clsTruthy]

theorem pyEq_truthy {a b : PyVal} (h : pyEq a b = true) : pyTruthy a = pyTruthy b := by
  rw [pyTruthy_eq_cls, pyTruthy_eq_cls]
  simp only [pyEq_eq_decide_cls, decide_eq_true_eq] at h
  rw [h]

theorem pyMem_iff {x : PyVal} {l : List PyVal} :
    pyMem x l = true ↔ ∃ y ∈ l, pyEq x y = true := by
  simp [pyMem, List.any_eq_true]

theorem pyMem_congr {a b : PyVal} (h : pyEq a b = true) (l : List PyVal) :
    pyMem a l = pyMem b l := by
  have hc : pyCls a = pyCls b := by
    simpa only [pyEq_eq_decide_cls, decide_eq_true_eq] using h
  induction l with
  | nil => rfl
  | cons y t ih =>
    simp only [pyMem, List.any_cons] at *
    rw [ih, pyEq_eq_decide_cls, pyEq_eq_decide_cls, hc]

theorem pyMem_append (x : PyVal) (l₁ l₂ : List PyVal) :
    pyMem x (l₁ ++ l₂) = (pyMem x l₁ || pyMem x l₂) := by
  simp [pyMem]

theorem pyMem_of_mem_pyEq {x y : PyVal} {l : List PyVal} (hm : y ∈ l)
    (h : pyEq x y = true) : pyMem x l = true :=
  pyMem_iff.mpr ⟨y, hm, h⟩

theorem pyMem_vector_ids_truthy {x : PyVal} {vs : List SearchHit}
    (h : pyMem x (vector_ids vs) = true) : pyTruthy x = true := by
  obtain ⟨y, hy, hxy⟩ := pyMem_iff.mp h
  simp only [vector_ids, List.mem_filter, List.mem_map] at hy
  rw [pyEq_truthy hxy]
  exact hy.2

theorem pyMem_vector_ids_exists {x : PyVal} {vs : List SearchHit}
    (h : pyMem x (vector_ids vs) = true) :
    ∃ vr ∈ vs, pyEq (vrId vr) x = true := by
  obtain ⟨y, hy, hxy⟩ := pyMem_iff.mp h
  simp only [vector_ids, List.mem_filter, List.mem_map] at hy
  obtain ⟨⟨vr, hvr, rfl⟩, -⟩ := hy
  exact ⟨vr, hvr, pyEq_symm hxy⟩

theorem pyMem_vector_ids_of_truthy {vr : SearchHit} {vs : List SearchHit} {x : PyVal}
    (hvr : vr ∈ vs) (hx : pyEq (vrId vr) x = true) (ht : pyTruthy x = true) :
    pyMem x (vector_ids vs) = true := by
  refine pyMem_of_mem_pyEq ?_ (pyEq_symm hx)
  refine List.mem_filter.mpr ⟨List.mem_map.mpr ⟨vr, hvr, rfl⟩, ?_⟩
  rw [pyEq_truthy hx]
  exact ht

theorem head?_dropWhile_false {p : Char → Bool} {l : List Char} {a : Char}
    (h : (l.dropWhile p).head? = some a) : p a = false := by
  have hh := List.head?_dropWhile_not p l
  rw [h] at hh
  exact hh

theorem stripped_pyStrip (w : List Char) : Stripped (pyStrip w) := by
  constructor
  · intro a ha
    simp only [pyStrip, List.head?_reverse] at ha
    have hsuf : ((w.dropWhile pyIsSpace).reverse.dropWhile pyIsSpace)
        <:+ (w.dropWhile pyIsSpace).reverse := List.dropWhile_suffix _
    obtain ⟨t, ht⟩ := hsuf
    have h2 : (w.dropWhile pyIsSpace).reverse.getLast? = some a := by
      rw [← ht, List.getLast?_append, ha]
      rfl
    rw [List.getLast?_reverse] at h2
    exact head?_dropWhile_false h2
  · intro a ha
    simp only [pyStrip, List.getLast?_reverse] at ha
    exact head?_dropWhile_false ha

theorem dropWhile_eq_self_of_head? {p : Char → Bool} {l : List Char}
    (h : ∀ a ∈ l.head?, p a = false) : l.dropWhile p = l := by
  cases l with
  | nil => rfl
  | cons a t => simp [List.dropWhile_cons, h a (by simp)]

theorem pyStrip_eq_self_of_stripped {c : List Char} (h : Stripped c) : pyStrip c = c := by
  obtain ⟨h1, h2⟩ := h
  unfold pyStrip
  rw [dropWhile_eq_self_of_head? h1,
    dropWhile_eq_self_of_head? (by simpa using h2), List.reverse_reverse]

theorem pyStrip_idem (w : List Char) : pyStrip (pyStrip w) = pyStrip w :=
  pyStrip_eq_self_of_stripped (stripped_pyStrip w)

theorem pyRfind_spec {s pat : List Char} {i : Nat} (h : pyRfind s pat = some i) :
    matchesAt s pat i = true ∧ i ≤ s.length := by
  have hm := List.mem_of_getLast?_eq_some h
  have := List.mem_filter.mp hm
  refine ⟨this.2, ?_⟩
  have := List.mem_range.mp this.1
  omega

theorem matchesAt_length {s pat : List Char} {i : Nat} (h : matchesAt s pat i = true) :
    pat.length ≤ s.length - i := by
  have := (List.isPrefixOf_iff_prefix.mp h).length_le
  simpa using this

theorem pySlice_window_length (text : List Char) (start cs : Nat) :
    (pySlice text start (start + cs)).length ≤ cs := by
  simp only [pySlice, List.length_drop, List.length_take]
  omega

theorem past30_pos {i cs : Nat} (hcs : 1 ≤ cs) (h : past30 i cs = true) : 1 ≤ i := by
  simp only [past30, decide_eq_true_eq] at h
  omega

theorem splitPointPara_pos {chunk : List Char} {cs : Nat} (hcs : 1 ≤ cs) :
    1 ≤ splitPointPara chunk cs := by
  unfold splitPointPara
  split
  case _ lb heq =>
    split
    case _ h => exact past30_pos hcs h
    case _ h => exact hcs
  case _ heq =>
    split
    case _ lp heq2 => split <;> omega
    case _ heq2 => exact hcs

theorem splitPoint_pos {chunk : List Char} {cs : Nat} (hcs : 1 ≤ cs) :
    1 ≤ splitPoint chunk cs := by
  unfold splitPoint
  split
  case _ cb heq =>
    split
    case _ h => exact past30_pos hcs h
    case _ h => exact splitPointPara_pos hcs
  case _ heq => exact splitPointPara_pos hcs

theorem splitPointPara_le {chunk : List Char} {cs : Nat} (hlen : chunk.length ≤ cs) :
    splitPointPara chunk cs ≤ cs := by
  unfold splitPointPara
  split
  case _ lb heq =>
    have h1 := pyRfind_spec heq
    split <;> omega
  case _ heq =>
    split
    case _ lp heq2 =>
      have h1 := pyRfind_spec heq2
      have h2 := matchesAt_length h1.1
      simp only [sentencePat, List.length_cons, List.length_nil] at h2
      split <;> omega
    case _ heq2 => omega

theorem splitPoint_le {chunk : List Char} {cs : Nat} (hlen : chunk.length ≤ cs) :
    splitPoint chunk cs ≤ cs := by
  unfold splitPoint
  split
  case _ cb heq =>
    have h1 := pyRfind_spec heq
    split
    case _ h => omega
    case _ h => exact splitPointPara_le hlen
  case _ heq => exact splitPointPara_le hlen

theorem nextEnd_progress (text : List Char) (cs : Nat) (hcs : 1 ≤ cs) (start : Nat) :
    start < nextEnd text cs start := by
  have := @splitPoint_pos (pySlice text start (start + cs)) cs hcs
  unfold nextEnd
  omega

theorem nextEnd_le (text : List Char) (cs start : Nat) :
    nextEnd text cs start ≤ start + cs := by
  have := splitPoint_le (pySlice_window_length text start cs)
  unfold nextEnd
  omega

theorem smartChunkGo_nil_of_le {text : List Char} {cs : Nat} (fuel : Nat) {start : Nat}
    (h : text.length ≤ start) : smartChunkGo text cs fuel start = [] := by
  cases fuel with
  | zero => rfl
  | succ n => simp [smartChunkGo, Nat.not_lt.mpr h]

theorem smartChunkGo_mem_strip {text : List Char} {cs : Nat} :
    ∀ fuel start, ∀ c ∈ smartChunkGo text cs fuel start, ∃ w, c = pyStrip w := by
  intro fuel
  induction fuel with
  | zero =>
    intro start c hc
    simp [smartChunkGo] at hc
  | succ n ih =>
    intro start c hc
    simp only [smartChunkGo] at hc
    split at hc
    · split at hc
      · simp only [List.mem_singleton] at hc
        exact ⟨_, hc⟩
      · rcases List.mem_append.mp hc with h | h
        · split at h
          · simp at h
          · simp only [List.mem_singleton] at h
            exact ⟨_, h⟩
        · exact ih _ c h
    · simp at hc

theorem smartChunkGo_fuel_stable {text : List Char} {cs : Nat} (hcs : 1 ≤ cs) :
    ∀ fuel₁ fuel₂ start, text.length - start ≤ fuel₁ → text.length - start ≤ fuel₂ →
      smartChunkGo text cs fuel₁ start = smartChunkGo text cs fuel₂ start := by
  intro fuel₁
  induction fuel₁ with
  | zero =>
    intro fuel₂ start h1 h2
    have hge : text.length ≤ start := by omega
    rw [smartChunkGo_nil_of_le 0 hge, smartChunkGo_nil_of_le fuel₂ hge]
  | succ n ih =>
    intro fuel₂ start h1 h2
    by_cases hs : start < text.length
    · cases fuel₂ with
      | zero => omega
      | succ k =>
        simp only [smartChunkGo, if_pos hs]
        by_cases hfin : text.length ≤ start + cs
        · rw [if_pos hfin, if_pos hfin]
        · rw [if_neg hfin, if_neg hfin]
          have he₁ := nextEnd_progress text cs hcs start
          congr 1
          exact ih k (nextEnd text cs start) (by omega) (by omega)
    · have hge : text.length ≤ start := by omega
      rw [smartChunkGo_nil_of_le _ hge, smartChunkGo_nil_of_le fuel₂ hge]

theorem smartChunkGo_ne_nil {text : List Char} {cs : Nat} (hcs : 1 ≤ cs) :
    ∀ fuel start, start < text.length → text.length - start ≤ fuel →
      smartChunkGo text cs fuel start ≠ [] := by
  intro fuel
  induction fuel with
  | zero => intro start hs h; omega
  | succ n ih =>
    intro start hs h
    simp only [smartChunkGo, if_pos hs]
    by_cases hfin : text.length ≤ start + cs
    · rw [if_pos hfin]
      simp
    · rw [if_neg hfin]
      have he₁ := nextEnd_progress text cs hcs start
      have he₂ := nextEnd_le text cs start
      have hrec := ih (nextEnd text cs start) (by omega) (by omega)
      intro hctr
      rcases List.append_eq_nil.mp hctr with ⟨-, h2⟩
      exact hrec h2

theorem smartChunkGo_dropLast_ne_nil {text : List Char} {cs : Nat} (hcs : 1 ≤ cs) :
    ∀ fuel start, text.length - start ≤ fuel →
      ∀ c ∈ (smartChunkGo text cs fuel start).dropLast, c ≠ [] := by
  intro fuel
  induction fuel with
  | zero =>
    intro start h c hc
    simp [smartChunkGo] at hc
  | succ n ih =>
    intro start h c hc
    by_cases hs : start < text.length
    · simp only [smartChunkGo, if_pos hs] at hc
      by_cases hfin : text.length ≤ start + cs
      · rw [if_pos hfin] at hc
        simp at hc
      · rw [if_neg hfin] at hc
        have he₁ := nextEnd_progress text cs hcs start
        have he₂ := nextEnd_le text cs start
        have hne := @smartChunkGo_ne_nil text cs hcs n
          (nextEnd text cs start) (by omega) (by omega)
        rw [List.dropLast_append_of_ne_nil _ hne] at hc
        rcases List.mem_append.mp hc with h1 | h1
        · split at h1
          · simp at h1
          · next hcne =>
            simp only [List.mem_singleton] at h1
            rw [h1]
            exact hcne
        · exact ih (nextEnd text cs start) (by omega) c h1
    · rw [smartChunkGo_nil_of_le _ (by omega)] at hc
      simp at hc

/-- C5 (amended): in `smart_chunk_markdown`, when the code-fence condition
does not fire and the window contains no `"\n\n"` at all, a `". "`
occurrence past 30% of `chunk_size` makes the iteration split just after
the period.  (The original claim also allowed a window containing an early
`"\n\n"`; the `elif` chain of the source never reaches the sentence check
in that case — see the counterexample.) -/
theorem chunker_sentence_split_amended (text : List Char) (cs start lp : Nat)
    (hfence : ∀ cb, pyRfind (pySlice text start (start + cs)) fencePat = some cb →
      past30 cb cs = false)
    (hpara : pyRfind (pySlice text start (start + cs)) paraPat = none)
    (hsent : pyRfind (pySlice text start (start + cs)) sentencePat = some lp)
    (hpast : past30 lp cs = true) :
    nextEnd text cs start = start + (lp + 1) := by
  unfold nextEnd splitPoint splitPointPara
  split
  case _ cb heq => simp [hfence cb heq, hpara, hsent, hpast]
  case _ heq => simp [hpara, hsent, hpast]

/-- C5 counterexample: window `"a\n\nbc. def"` of `chunk("a\n\nbc. defghij",
10)` has its paragraph break at 1 (failing the 30% guard, 10·1 ≤ 3·10) and a
sentence boundary at 5 (past the guard, 10·5 > 3·10), yet the chunker keeps
the hard cut `end = start + 10` instead of splitting after the period at
`start + 6`: the sentence branch is unreachable because `"\n\n"` occurs in
the window. -/
theorem chunker_sentence_split_cex :
    pyRfind (pySlice "a\n\nbc. defghij".data 0 (0 + 10)) fencePat = none ∧
    pyRfind (pySlice "a\n\nbc. defghij".data 0 (0 + 10)) paraPat = some 1 ∧
    past30 1 10 = false ∧
    pyRfind (pySlice "a\n\nbc. defghij".data 0 (0 + 10)) sentencePat = some 5 ∧
    past30 5 10 = true ∧
    nextEnd "a\n\nbc. defghij".data 10 0 = 10 ∧
    ¬ nextEnd "a\n\nbc. defghij".data 10 0 = 0 + (5 + 1) ∧
    smart_chunk_markdown "a\n\nbc. defghij".data 10
      = ["a\n\nbc. def".data, "ghij".data] := by
  refine ⟨by decide, by decide, by decide, by decide, by decide, by decide, by decide, by decide⟩

/-- Witness: the amended C5 theorem applied to `chunk("abcd. fghijklm", 10)`
at window start 0, whose sentence boundary sits at offset 4. -/
theorem chunker_sentence_split_amended_witness :
    nextEnd "abcd. fghijklm".data 10 0 = 0 + (4 + 1) :=
  chunker_sentence_split_amended "abcd. fghijklm".data 10 0 4
    (fun cb h => by
      rw [show pyRfind (pySlice "abcd. fghijklm".data 0 (0 + 10)) fencePat = none
        from by decide] at h
      exact Option.noConfusion h)
    (by decide) (by decide) (by decide)

/-- C6 (amended): every chunk emitted by `smart_chunk_markdown` is stripped;
every chunk except possibly the final one is non-empty (the final
`chunks.append(text[start:].strip())` is unconditional, so the last chunk
may be empty — see the counterexample); `chunk("", N) = []`; and non-empty
input no longer than `chunk_size` yields the single chunk `text.strip()`. -/
theorem chunker_output_stripped_amended :
    (∀ text cs, ∀ c ∈ smart_chunk_markdown text cs, pyStrip c = c) ∧
    (∀ text cs, 1 ≤ cs → ∀ c ∈ (smart_chunk_markdown text cs).dropLast, c ≠ []) ∧
    (∀ cs, smart_chunk_markdown [] cs = []) ∧
    (∀ text cs, text ≠ [] → text.length ≤ cs → smart_chunk_markdown text cs = [pyStrip text]) := by
  refine ⟨?_, ?_, ?_, ?_⟩
  · intro text cs c hc
    obtain ⟨w, rfl⟩ := smartChunkGo_mem_strip _ _ c hc
    exact pyStrip_idem w
  · intro text cs hcs c hc
    exact smartChunkGo_dropLast_ne_nil hcs _ 0 (by omega) c hc
  · intro cs
    rfl
  · intro text cs hne hlen
    have h0 : 0 < text.length := List.length_pos.mpr hne
    simp [smart_chunk_markdown, smartChunkGo, h0, hlen]

/-- C6 counterexample: `chunk("abcde   ", 5)` returns `["abcde", ""]` — the
empty final chunk is appended, contradicting "every string in the returned
sequence is non-empty / empty results are discarded, including the final
chunk". -/
theorem chunker_empty_final_chunk_cex :
    smart_chunk_markdown "abcde   ".data 5 = ["abcde".data, []] ∧
    [] ∈ smart_chunk_markdown "abcde   ".data 5 := by
  exact ⟨by decide, by decide⟩

/-- Witness: the amended C6 theorem applied to `chunk("hi", 10)`. -/
theorem chunker_output_stripped_amended_witness :
    ('h' :: ['i']) ≠ [] ∧ smart_chunk_markdown ['h', 'i'] 10 = [pyStrip ['h', 'i']] :=
  ⟨by decide, chunker_output_stripped_amended.2.2.2 ['h', 'i'] 10 (by decide) (by decide)⟩

/-- C7 counterexample: with `chunk_size = 0` (an integer accepted by the
contract) the loop iteration at `start = 0` of `chunk("ab", 0)` recomputes
`end = 0`: the scan position does not advance, so the `while` loop never
terminates.  This refutes "every loop iteration strictly advances the scan
position" for every integer `max_chunk_size`. -/
theorem chunker_zero_size_stalls_cex :
    nextEnd ['a', 'b'] 0 0 = 0 ∧ 0 < (['a', 'b'] : List Char).length := by
  exact ⟨by decide, by decide⟩

/-- C7 (amended): for `chunk_size ≥ 1` every loop iteration strictly
advances the scan position, and the single pass terminates: any fuel of at
least `text.length` iterations computes the same final chunk sequence. -/
theorem chunker_progress_amended (text : List Char) (cs : Nat) (hcs : 1 ≤ cs) :
    (∀ start, start < nextEnd text cs start) ∧
    (∀ fuel, text.length ≤ fuel → smartChunkGo text cs fuel 0 = smart_chunk_markdown text cs) := by
  constructor
  · exact nextEnd_progress text cs hcs
  · intro fuel hf
    exact smartChunkGo_fuel_stable hcs fuel (text.length + 1) 0 (by omega) (by omega)

/-- Witness: the amended C7 theorem at `chunk("a", 1)`. -/
theorem chunker_progress_amended_witness : 0 < nextEnd ['a'] 1 0 :=
  (chunker_progress_amended ['a'] 1 (by decide)).1 0

/-- C8 (amended): `extract_section_info` is a pure total function whose
`char_count` is the chunk length, whose `word_count` is the number of
whitespace-split tokens, and whose header summary joins `"{hashes} {text}"`
with `"; "` over the regex matches; empty input yields empty summary and
zero counts.  In the spec's scenario `"# Title\n\nSome text"` the summary is
`"# Title"` but the whitespace-split token count is 4 (`#`, `Title`,
`Some`, `text`), not the 3 stated by the claim.  The final conjunct
exercises the regex corner case of a header line made of trailing
whitespace containing a newline: on `"#  \n"` the `\s+` backtracking
leaves one space as the `(.+)` group (`$` matching before the newline),
so the summary is `"#  "`. -/
theorem section_info_amended :
    (∀ c, (extract_section_info c).char_count = c.length) ∧
    (∀ c, (extract_section_info c).word_count = (pyWords c).length) ∧
    (∀ c, (extract_section_info c).headers
      = List.intercalate [';', ' '] ((findallHeaders c).map (fun ht => ht.1 ++ ' ' :: ht.2))) ∧
    extract_section_info [] = ⟨[], 0, 0⟩ ∧
    extract_section_info "# Title\n\nSome text".data = ⟨"# Title".data, 18, 4⟩ ∧
    extract_section_info "#  \n".data = ⟨['#', ' ', ' '], 4, 1⟩ :=
  ⟨fun _ => rfl, fun _ => rfl, fun _ => rfl, by decide, by decide, by decide⟩

/-- C8 counterexample: the scenario chunk `"# Title\n\nSome text"` has
whitespace-split token count 4, not 3 (`"#"` and `"Title"` are separate
tokens of `chunk.split()`). -/
theorem section_info_word_count_cex :
    (extract_section_info "# Title\n\nSome text".data).word_count = 4 ∧
    ¬ (extract_section_info "# Title\n\nSome text".data).word_count = 3 :=
  ⟨by decide, by decide⟩

/-- C9: `perform_rag_query` rejects exactly the empty / whitespace-only
queries, and the `match_count` normalisation lands every value in `[1, 50]`
while leaving in-range values unchanged (out-of-range low values become the
default 5, values above 50 become 50 — both inside `[1, 50]`). -/
theorem rag_query_validation :
    (∀ q : List Char, query_is_rejected q = true ↔ pyStrip q = []) ∧
    (∀ m : Int, 1 ≤ clamp_match_count m ∧ clamp_match_count m ≤ 50) ∧
    (∀ m : Int, 1 ≤ m → m ≤ 50 → clamp_match_count m = m) := by
  refine ⟨?_, ?_, ?_⟩
  · intro q
    constructor
    · intro h
      rcases Bool.or_eq_true _ _ |>.mp h with h1 | h1
      · rw [List.isEmpty_iff.mp h1]
        rfl
      · exact List.isEmpty_iff.mp h1
    · intro h
      unfold query_is_rejected
      rw [h]
      simp
  · intro m
    unfold clamp_match_count
    split
    · omega
    · split <;> omega
  · intro m h1 h2
    unfold clamp_match_count
    split
    · omega
    · split <;> omega

/-- Witness: the C9 theorem at query `"hi"` and `match_count = 7`. -/
theorem rag_query_validation_witness : clamp_match_count 7 = 7 :=
  rag_query_validation.2.2 7 (by decide) (by decide)

theorem vrId_boostRecord (vr : SearchHit) (r : Rat) : vrId (boostRecord vr r) = vrId vr := rfl

theorem vrId_mkKeyHit (kid : PyVal) (k : KeyHit) : vrId (mkKeyHit kid k) = kid := rfl

theorem pyMem_mono_append {x : PyVal} {l₁ : List PyVal} (l₂ : List PyVal)
    (h : pyMem x l₁ = true) : pyMem x (l₁ ++ l₂) = true := by
  rw [pyMem_append, h]
  rfl

theorem pyMem_false_left {x : PyVal} {l₁ l₂ : List PyVal}
    (h : pyMem x (l₁ ++ l₂) = false) : pyMem x l₁ = false := by
  rw [pyMem_append] at h
  exact (Bool.or_eq_false_iff.mp h).1

theorem inv_append {comb : List SearchHit} {seen : List PyVal} {o : SearchHit} {x : PyVal}
    (hinv : SeenCombInv comb seen) (hdist : DistinctIds comb)
    (ho : pyEq (vrId o) x = true) (hns : pyMem x seen = false) :
    SeenCombInv (comb ++ [o]) (seen ++ [x]) ∧ DistinctIds (comb ++ [o]) := by
  obtain ⟨hin1, hin2⟩ := hinv
  unfold SeenCombInv DistinctIds at *
  refine ⟨⟨?_, ?_⟩, ?_⟩
  · intro o' ho'
    rcases List.mem_append.mp ho' with hm | hm
    · exact pyMem_mono_append _ (hin1 o' hm)
    · simp only [List.mem_singleton] at hm
      subst hm
      rw [pyMem_append]
      have hx : pyMem (vrId o') [x] = true := by
        simp [pyMem, ho]
      rw [hx, Bool.or_true]
  · intro y hy
    rcases List.mem_append.mp hy with hm | hm
    · obtain ⟨o', ho', he⟩ := hin2 y hm
      exact ⟨o', List.mem_append_left _ ho', he⟩
    · simp only [List.mem_singleton] at hm
      subst hm
      exact ⟨o, List.mem_append_right _ (by simp), ho⟩
  · rw [List.pairwise_append]
    refine ⟨hdist, by simp, ?_⟩
    intro a ha b hb
    simp only [List.mem_singleton] at hb
    subst hb
    by_contra hne
    have hab : pyEq (vrId a) (vrId b) = true := by
      cases hh : pyEq (vrId a) (vrId b)
      · exact absurd hh hne
      · rfl
    have h1 : pyMem (vrId a) seen = true := hin1 a ha
    have h2 : pyMem (vrId b) seen = true := by
      rw [← pyMem_congr hab seen]
      exact h1
    have h3 : pyMem x seen = true := by
      rw [← pyMem_congr ho seen]
      exact h2
    rw [hns] at h3
    cases h3

theorem Pass1Item_mono {vs : List SearchHit} {kr : KeyHit} {rest : List KeyHit} {o : SearchHit}
    (h : Pass1Item vs rest o) : Pass1Item vs (kr :: rest) o := by
  obtain ⟨vr, hvr, kid, r, ⟨kr', hkr', hid⟩, h1, h2, h3, h4⟩ := h
  exact ⟨vr, hvr, kid, r, ⟨kr', List.mem_cons_of_mem _ hkr', hid⟩, h1, h2, h3, h4⟩

theorem pass1_spec (vs : List SearchHit) (ks : List KeyHit) :
    ∀ comb seen c s, pass1 vs ks comb seen = .ok (c, s) →
      SeenCombInv comb seen → DistinctIds comb →
      (SeenCombInv c s ∧ DistinctIds c) ∧
      (∃ t, c = comb ++ t ∧ ∀ o ∈ t, Pass1Item vs ks o) ∧ (∃ u, s = seen ++ u) := by
  induction ks with
  | nil =>
    intro comb seen c s h hinv hdist
    simp only [pass1, Except.ok.injEq, Prod.mk.injEq] at h
    obtain ⟨rfl, rfl⟩ := h
    exact ⟨⟨hinv, hdist⟩, ⟨[], by simp, by simp⟩, ⟨[], by simp⟩⟩
  | cons kr rest ih =>
    intro comb seen c s h hinv hdist
    simp only [pass1] at h
    split at h
    · exact absurd h (by simp)
    · next kid hk =>
      split at h
      · next hguard =>
        split at h
        · next vr hfind =>
          split at h
          · exact absurd h (by simp)
          · next r hb =>
            have hfeq : pyEq (vrId vr) kid = true := by
              simpa using List.find?_some hfind
            have hvrm : vr ∈ vs := List.mem_of_find?_eq_some hfind
            have hns : pyMem kid seen = false := by
              have := (Bool.and_eq_true _ _ |>.mp hguard).2
              simpa using this
            have hmemv : pyMem kid (vector_ids vs) = true :=
              (Bool.and_eq_true _ _ |>.mp hguard).1
            obtain ⟨hstep, hstepd⟩ := @inv_append comb seen (boostRecord vr r) kid
              hinv hdist (by rw [vrId_boostRecord]; exact hfeq) hns
            obtain ⟨hinv', ⟨t, hts, hti⟩, ⟨u, hu⟩⟩ := ih _ _ _ _ h hstep hstepd
            refine ⟨hinv', ⟨boostRecord vr r :: t, ?_, ?_⟩, ⟨kid :: u, ?_⟩⟩
            · rw [hts]
              simp
            · intro o ho
              rcases List.mem_cons.mp ho with rfl | ho'
              · exact ⟨vr, hvrm, kid, r,
                  ⟨⟨kr, List.mem_cons_self _ _, hk⟩, hfeq, hmemv, hb, rfl⟩⟩
              · exact Pass1Item_mono (hti o ho')
            · rw [hu]
              simp
        · obtain ⟨hinv', ⟨t, hts, hti⟩, hu⟩ := ih _ _ _ _ h hinv hdist
          exact ⟨hinv', ⟨t, hts, fun o ho => Pass1Item_mono (hti o ho)⟩, hu⟩
      · obtain ⟨hinv', ⟨t, hts, hti⟩, hu⟩ := ih _ _ _ _ h hinv hdist
        exact ⟨hinv', ⟨t, hts, fun o ho => Pass1Item_mono (hti o ho)⟩, hu⟩

theorem pass1_covers (vs : List SearchHit) (ks : List KeyHit) :
    ∀ comb seen c s, pass1 vs ks comb seen = .ok (c, s) →
      ∀ x, pyMem x (vector_ids vs) = true →
        ((∃ kr ∈ ks, ∃ kid, kr.id? = some kid ∧ pyEq kid x = true) ∨ pyMem x seen = true) →
        pyMem x s = true := by
  induction ks with
  | nil =>
    intro comb seen c s h x hxv hw
    simp only [pass1, Except.ok.injEq, Prod.mk.injEq] at h
    obtain ⟨rfl, rfl⟩ := h
    rcases hw with ⟨kr, hm, -⟩ | hm
    · exact absurd hm (List.not_mem_nil kr)
    · exact hm
  | cons kr rest ih =>
    intro comb seen c s h x hxv hw
    simp only [pass1] at h
    split at h
    · exact absurd h (by simp)
    · next kid hk =>
      split at h
      · next hguard =>
        split at h
        · next vr hfind =>
          split at h
          · exact absurd h (by simp)
          · next r hb =>
            apply ih _ _ _ _ h x hxv
            rcases hw with ⟨kr', hm', kid', hid', he'⟩ | hm
            · rcases List.mem_cons.mp hm' with rfl | hm'
              · right
                rw [hk] at hid'
                injection hid' with hkid
                subst hkid
                rw [pyMem_append]
                have : pyMem x [kid] = true := by
                  simp [pyMem, pyEq_symm he']
                rw [this, Bool.or_true]
              · exact Or.inl ⟨kr', hm', kid', hid', he'⟩
            · exact Or.inr (pyMem_mono_append _ hm)
        · next hfind =>
          apply ih _ _ _ _ h x hxv
          rcases hw with ⟨kr', hm', kid', hid', he'⟩ | hm
          · rcases List.mem_cons.mp hm' with rfl | hm'
            · exfalso
              rw [hk] at hid'
              injection hid' with hkid
              subst hkid
              obtain ⟨vr0, hvr0, hvx⟩ := pyMem_vector_ids_exists hxv
              have hvk : pyEq (vrId vr0) kid = true := pyEq_trans hvx (pyEq_symm he')
              have hsome : (vs.find? (fun vr => pyEq (vrId vr) kid)).isSome :=
                List.find?_isSome.mpr ⟨vr0, hvr0, hvk⟩
              rw [hfind] at hsome
              exact absurd hsome (by simp)
            · exact Or.inl ⟨kr', hm', kid', hid', he'⟩
          · exact Or.inr hm
      · next hguard =>
        apply ih _ _ _ _ h x hxv
        rcases hw with ⟨kr', hm', kid', hid', he'⟩ | hm
        · rcases List.mem_cons.mp hm' with rfl | hm'
          · right
            rw [hk] at hid'
            injection hid' with hkid
            subst hkid
            have hgf : (pyMem kid (vector_ids vs) && !pyMem kid seen) = false :=
              Bool.eq_false_iff.mpr hguard
            have hkv : pyMem kid (vector_ids vs) = true := by
              rw [pyMem_congr he' (vector_ids vs)]
              exact hxv
            have hks : pyMem kid seen = true := by
              rcases Bool.and_eq_false_iff.mp hgf with h1 | h1
              · rw [hkv] at h1
                exact absurd h1 (by simp)
              · simpa using h1
            rw [← pyMem_congr he' seen]
            exact hks
          · exact Or.inl ⟨kr', hm', kid', hid', he'⟩
        · exact Or.inr hm

theorem pass2_spec (m : Nat) :
    ∀ l comb seen, SeenCombInv comb seen → DistinctIds comb →
      (SeenCombInv (pass2 m l comb seen).1 (pass2 m l comb seen).2 ∧
        DistinctIds (pass2 m l comb seen).1) ∧
      (∃ t, (pass2 m l comb seen).1 = comb ++ t ∧
        ∀ o ∈ t, o ∈ l ∧ pyTruthy (vrId o) = true ∧ pyMem (vrId o) seen = false) ∧
      (∃ u, (pass2 m l comb seen).2 = seen ++ u) := by
  intro l
  induction l with
  | nil =>
    intro comb seen hinv hdist
    exact ⟨⟨hinv, hdist⟩, ⟨[], by simp [pass2], by simp⟩, ⟨[], by simp [pass2]⟩⟩
  | cons vr rest ih =>
    intro comb seen hinv hdist
    rw [pass2]
    split
    · next hguard =>
      simp only [Bool.and_eq_true, Bool.not_eq_true', decide_eq_true_eq] at hguard
      obtain ⟨⟨htruthy, hmemf⟩, hlen⟩ := hguard
      obtain ⟨hstep, hstepd⟩ :=
        @inv_append comb seen vr (vrId vr) hinv hdist (pyEq_refl _) hmemf
      obtain ⟨hinv', ⟨t, hts, hti⟩, ⟨u, hu⟩⟩ := ih _ _ hstep hstepd
      refine ⟨hinv', ⟨vr :: t, by rw [hts]; simp, ?_⟩, ⟨vrId vr :: u, by rw [hu]; simp⟩⟩
      intro o ho
      rcases List.mem_cons.mp ho with rfl | ho'
      · exact ⟨List.mem_cons_self _ _, htruthy, hmemf⟩
      · obtain ⟨hol, hot, hom⟩ := hti o ho'
        exact ⟨List.mem_cons_of_mem _ hol, hot, pyMem_false_left hom⟩
    · obtain ⟨hinv', ⟨t, hts, hti⟩, hu⟩ := ih _ _ hinv hdist
      exact ⟨hinv', ⟨t, hts, fun o ho =>
        ⟨List.mem_cons_of_mem _ (hti o ho).1, (hti o ho).2⟩⟩, hu⟩

theorem pass3_spec (m : Nat) (ks : List KeyHit) :
    ∀ comb seen c s, pass3 m ks comb seen = .ok (c, s) →
      SeenCombInv comb seen → DistinctIds comb →
      (SeenCombInv c s ∧ DistinctIds c) ∧
      (∃ t, c = comb ++ t ∧
        ∀ o ∈ t, (∃ kr ∈ ks, ∃ kid, kr.id? = some kid ∧ o = mkKeyHit kid kr) ∧
          pyMem (vrId o) seen = false) ∧
      (∃ u, s = seen ++ u) := by
  induction ks with
  | nil =>
    intro comb seen c s h hinv hdist
    simp only [pass3, Except.ok.injEq, Prod.mk.injEq] at h
    obtain ⟨rfl, rfl⟩ := h
    exact ⟨⟨hinv, hdist⟩, ⟨[], by simp, by simp⟩, ⟨[], by simp⟩⟩
  | cons kr rest ih =>
    intro comb seen c s h hinv hdist
    simp only [pass3] at h
    split at h
    · exact absurd h (by simp)
    · next kid hk =>
      split at h
      · next hguard =>
        simp only [Bool.and_eq_true, Bool.not_eq_true', decide_eq_true_eq] at hguard
        obtain ⟨hmemf, hlen⟩ := hguard
        obtain ⟨hstep, hstepd⟩ := @inv_append comb seen (mkKeyHit kid kr) kid hinv hdist
          (by rw [vrId_mkKeyHit]; exact pyEq_refl _) hmemf
        obtain ⟨hinv', ⟨t, hts, hti⟩, ⟨u, hu⟩⟩ := ih _ _ _ _ h hstep hstepd
        refine ⟨hinv', ⟨mkKeyHit kid kr :: t, by rw [hts]; simp, ?_⟩,
          ⟨kid :: u, by rw [hu]; simp⟩⟩
        intro o ho
        rcases List.mem_cons.mp ho with rfl | ho'
        · refine ⟨⟨kr, List.mem_cons_self _ _, kid, hk, rfl⟩, ?_⟩
          rw [vrId_mkKeyHit]
          exact hmemf
        · obtain ⟨⟨kr', hkr', kid', hk', ho'eq⟩, hom⟩ := hti o ho'
          exact ⟨⟨kr', List.mem_cons_of_mem _ hkr', kid', hk', ho'eq⟩, pyMem_false_left hom⟩
      · obtain ⟨hinv', ⟨t, hts, hti⟩, hu⟩ := ih _ _ _ _ h hinv hdist
        refine ⟨hinv', ⟨t, hts, ?_⟩, hu⟩
        intro o ho
        obtain ⟨⟨kr', hkr', kid', hk', ho'eq⟩, hom⟩ := hti o ho
        exact ⟨⟨kr', List.mem_cons_of_mem _ hkr', kid', hk', ho'eq⟩, hom⟩

theorem pass1_err (vs : List SearchHit) (ks : List KeyHit) :
    ∀ comb seen, (∃ kr ∈ ks, kr.id? = Option.none) →
      ∃ e, pass1 vs ks comb seen = .error e := by
  induction ks with
  | nil =>
    intro comb seen h
    obtain ⟨kr, hm, -⟩ := h
    exact absurd hm (List.not_mem_nil kr)
  | cons kr rest ih =>
    intro comb seen h
    cases hk : kr.id? with
    | none =>
      refine ⟨.keyError, ?_⟩
      simp only [pass1, hk]
    | some kid =>
      have hrest : ∃ kr' ∈ rest, kr'.id? = Option.none := by
        obtain ⟨kr', hm, hnone⟩ := h
        rcases List.mem_cons.mp hm with rfl | hm'
        · rw [hk] at hnone
          exact absurd hnone (by simp)
        · exact ⟨kr', hm', hnone⟩
      simp only [pass1, hk]
      split
      · split
        · next vr hfind =>
          cases hb : boostSim (simVal vr) with
          | error e =>
            refine ⟨e, ?_⟩
            simp only [hb]
          | ok r =>
            simp only [hb]
            exact ih _ _ hrest
        · exact ih _ _ hrest
      · exact ih _ _ hrest

theorem pass1_ok (vs : List SearchHit) (ks : List KeyHit)
    (hsim : ∀ vr ∈ vs, ∃ q, pyToRat (simVal vr) = some q) :
    ∀ comb seen, (∀ kr ∈ ks, ∃ kid, kr.id? = some kid) →
      ∃ st, pass1 vs ks comb seen = .ok st := by
  induction ks with
  | nil =>
    intro comb seen h
    exact ⟨(comb, seen), rfl⟩
  | cons kr rest ih =>
    intro comb seen h
    obtain ⟨kid, hk⟩ := h kr (List.mem_cons_self _ _)
    have hrest : ∀ kr' ∈ rest, ∃ kid, kr'.id? = some kid :=
      fun kr' hm => h kr' (List.mem_cons_of_mem _ hm)
    simp only [pass1, hk]
    split
    · split
      · next vr hfind =>
        obtain ⟨q, hq⟩ := hsim vr (List.mem_of_find?_eq_some hfind)
        have hb : boostSim (simVal vr) = .ok (min 1 (q * (6/5))) := by
          unfold boostSim
          rw [hq]
        simp only [hb]
        exact ih _ _ hrest
      · exact ih _ _ hrest
    · exact ih _ _ hrest

theorem pass3_ok (m : Nat) (ks : List KeyHit) :
    ∀ comb seen, (∀ kr ∈ ks, ∃ kid, kr.id? = some kid) →
      ∃ st, pass3 m ks comb seen = .ok st := by
  induction ks with
  | nil =>
    intro comb seen h
    exact ⟨(comb, seen), rfl⟩
  | cons kr rest ih =>
    intro comb seen h
    obtain ⟨kid, hk⟩ := h kr (List.mem_cons_self _ _)
    have hrest : ∀ kr' ∈ rest, ∃ kid, kr'.id? = some kid :=
      fun kr' hm => h kr' (List.mem_cons_of_mem _ hm)
    simp only [pass3, hk]
    split
    · exact ih _ _ hrest
    · exact ih _ _ hrest

theorem fuse_decomp {vs : List SearchHit} {ks : List KeyHit} {m : Nat} {out : List SearchHit}
    (h : fuse vs ks m = .ok out) :
    ∃ c1 s1 c3 s3,
      pass1 vs ks [] [] = .ok (c1, s1) ∧
      pass3 m ks (pass2 m vs c1 s1).1 (pass2 m vs c1 s1).2 = .ok (c3, s3) ∧
      out = c3.take m := by
  unfold fuse at h
  split at h
  · exact absurd h (by simp)
  · next c1 s1 hp1 =>
    split at h
    · next c2 s2 hp2 =>
      split at h
      · exact absurd h (by simp)
      · next c3 s3 hp3 =>
        simp only [Except.ok.injEq] at h
        refine ⟨c1, s1, c3, s3, hp1, ?_, h.symm⟩
        rw [hp2]
        exact hp3

theorem empty_SeenCombInv : SeenCombInv [] [] := by
  unfold SeenCombInv
  exact ⟨by simp, by simp⟩

theorem empty_DistinctIds : DistinctIds [] := by
  unfold DistinctIds
  exact List.Pairwise.nil

theorem pass1Item_shared {vs : List SearchHit} {ks : List KeyHit} {o : SearchHit}
    (h : Pass1Item vs ks o) : SharedHit vs ks o := by
  obtain ⟨vr, hvr, kid, r, ⟨kr, hkr, hk⟩, hfeq, hmemv, hb, rfl⟩ := h
  refine ⟨kid, ⟨pyMem_vector_ids_truthy hmemv, ⟨vr, hvr, hfeq⟩,
    ⟨kr, hkr, kid, hk, pyEq_refl _⟩⟩, ?_⟩
  rw [vrId_boostRecord]
  exact hfeq

theorem commonId_mem_s1 {vs : List SearchHit} {ks : List KeyHit} {c1 : List SearchHit}
    {s1 : List PyVal} (hp1 : pass1 vs ks [] [] = .ok (c1, s1)) {x : PyVal}
    (hcx : CommonId vs ks x) : pyMem x s1 = true := by
  obtain ⟨hxt, ⟨vr, hvr, hvx⟩, hkx⟩ := hcx
  exact pass1_covers vs ks [] [] c1 s1 hp1 x
    (pyMem_vector_ids_of_truthy hvr hvx hxt) (Or.inl hkx)

/-- C3: whenever the hybrid combination of `perform_rag_query` succeeds,
the fused list holds at most `match_count` items and no two of its items
have (Python-)equal `id` values. -/
theorem fusion_no_dup_within_cap (vs : List SearchHit) (ks : List KeyHit) (m : Nat)
    (out : List SearchHit) (h : fuse vs ks m = .ok out) :
    out.length ≤ m ∧ out.Pairwise (fun a b => pyEq (vrId a) (vrId b) = false) := by
  obtain ⟨c1, s1, c3, s3, hp1, hp3, rfl⟩ := fuse_decomp h
  obtain ⟨⟨hinv1, hdist1⟩, -, -⟩ :=
    pass1_spec vs ks [] [] c1 s1 hp1 empty_SeenCombInv empty_DistinctIds
  obtain ⟨⟨hinv2, hdist2⟩, -, -⟩ := pass2_spec m vs c1 s1 hinv1 hdist1
  obtain ⟨⟨hinv3, hdist3⟩, -, -⟩ := pass3_spec m ks _ _ c3 s3 hp3 hinv2 hdist2
  exact ⟨List.length_take_le m c3, List.Pairwise.sublist (List.take_sublist m c3) hdist3⟩

/-- Witness: C3 applied to the spec's scenario inputs with `match_count = 3`. -/
theorem fusion_no_dup_within_cap_witness :
    ([⟨some (.int 1), some (.float (min 1 ((4/5) * (6/5)))), restA⟩,
      ⟨some (.int 2), some (.float (3/5)), restB⟩,
      ⟨some (.int 3), some (.float (1/2)), restD⟩] : List SearchHit).length ≤ 3 ∧
    ([⟨some (.int 1), some (.float (min 1 ((4/5) * (6/5)))), restA⟩,
      ⟨some (.int 2), some (.float (3/5)), restB⟩,
      ⟨some (.int 3), some (.float (1/2)), restD⟩] : List SearchHit).Pairwise
      (fun a b => pyEq (vrId a) (vrId b) = false) :=
  fusion_no_dup_within_cap scenVec scenKey 3 _ rfl

/-- C4 (amended): a keyword hit missing its `id` key makes the whole
fusion raise `KeyError` (the surrounding handler then abandons hybrid
search and falls back to a fresh vector-only search); the offending hit is
not skipped and the remaining well-formed hits are not fused. -/
theorem fusion_malformed_aborts (vs : List SearchHit) (ks : List KeyHit) (m : Nat)
    (h : ∃ kr ∈ ks, kr.id? = Option.none) : ∃ e, fuse vs ks m = .error e := by
  obtain ⟨e, he⟩ := pass1_err vs ks [] [] h
  refine ⟨e, ?_⟩
  simp only [fuse, he]

/-- C4 counterexample: fusing one well-formed vector hit with one keyword
hit lacking `id` raises `KeyError` instead of skipping the malformed hit
and returning the well-formed one. -/
theorem fusion_malformed_cex : fuse cexVecC4 cexKeyC4 3 = .error .keyError := by rfl

/-- Witness: the amended C4 theorem at a concrete malformed keyword hit. -/
theorem fusion_malformed_aborts_witness :
    ∃ e, fuse [] [⟨Option.none, restA⟩] 2 = .error e :=
  fusion_malformed_aborts [] [⟨Option.none, restA⟩] 2
    ⟨⟨Option.none, restA⟩, List.mem_singleton.mpr rfl, rfl⟩

/-- C1 (amended): when hybrid fusion succeeds, the fused list splits into a
prefix of items whose ids are common to both input lists (with truthy id
values) followed by items whose ids are not; whenever any non-common item
made it into the output, every common truthy id is already represented in
the prefix.  (The original claim, quantified over arbitrary common ids, is
refuted by a falsy shared id such as `0`: the falsy-id filter of the
intersection and vector-only passes pushes it to the keyword-only pass —
see the counterexample.) -/
theorem fusion_rank_invariant_amended (vs : List SearchHit) (ks : List KeyHit) (m : Nat)
    (out : List SearchHit) (h : fuse vs ks m = .ok out) :
    ∃ l₁ l₂, out = l₁ ++ l₂ ∧
      (∀ o ∈ l₁, SharedHit vs ks o) ∧
      (∀ o ∈ l₂, ¬ SharedHit vs ks o) ∧
      (∀ x, CommonId vs ks x → l₂ = [] ∨ ∃ o ∈ l₁, pyEq (vrId o) x = true) := by
  obtain ⟨c1, s1, c3, s3, hp1, hp3, rfl⟩ := fuse_decomp h
  obtain ⟨⟨hinv1, hdist1⟩, ⟨t1, ht1eq, ht1i⟩, ⟨u1, hu1⟩⟩ :=
    pass1_spec vs ks [] [] c1 s1 hp1 empty_SeenCombInv empty_DistinctIds
  obtain ⟨hinv1a, hinv1b⟩ := hinv1
  obtain ⟨⟨hinv2, hdist2⟩, ⟨t2, ht2eq, ht2i⟩, ⟨u2, hu2⟩⟩ := pass2_spec m vs c1 s1 ⟨hinv1a, hinv1b⟩ hdist1
  obtain ⟨⟨hinv3, hdist3⟩, ⟨t3, ht3eq, ht3i⟩, ⟨u3, hu3⟩⟩ :=
    pass3_spec m ks _ _ c3 s3 hp3 hinv2 hdist2
  have hc3 : c3 = c1 ++ (t2 ++ t3) := by
    rw [ht3eq, ht2eq, List.append_assoc]
  refine ⟨c1.take m, (t2 ++ t3).take (m - c1.length), ?_, ?_, ?_, ?_⟩
  · rw [hc3, List.take_append_eq_append_take]
  · intro o ho
    have hoc1 : o ∈ c1 := List.mem_of_mem_take ho
    have hot1 : o ∈ t1 := by
      rw [ht1eq] at hoc1
      simpa using hoc1
    exact pass1Item_shared (ht1i o hot1)
  · intro o ho hsh
    obtain ⟨x, hcx, hex⟩ := hsh
    have hxs1 : pyMem x s1 = true := commonId_mem_s1 hp1 hcx
    have hos1 : pyMem (vrId o) s1 = true := by
      rw [pyMem_congr hex s1]
      exact hxs1
    have hom : o ∈ t2 ++ t3 := List.mem_of_mem_take ho
    rcases List.mem_append.mp hom with h2 | h3
    · obtain ⟨-, -, hof⟩ := ht2i o h2
      rw [hof] at hos1
      cases hos1
    · obtain ⟨-, hof⟩ := ht3i o h3
      rw [hu2] at hof
      have hfl := pyMem_false_left hof
      rw [hfl] at hos1
      cases hos1
  · intro x hcx
    by_cases hl2 : (t2 ++ t3).take (m - c1.length) = []
    · exact Or.inl hl2
    · right
      have hlen : c1.length < m := by
        by_contra hge
        have hz : m - c1.length = 0 := by omega
        rw [hz] at hl2
        exact hl2 rfl
      have hl1 : c1.take m = c1 := List.take_of_length_le (by omega)
      have hxs1 : pyMem x s1 = true := commonId_mem_s1 hp1 hcx
      obtain ⟨y, hy, hxy⟩ := pyMem_iff.mp hxs1
      obtain ⟨o, hoc, hoe⟩ := hinv1b y hy
      refine ⟨o, ?_, pyEq_trans hoe (pyEq_symm hxy)⟩
      rw [hl1]
      exact hoc

/-- C1 counterexample: with the falsy id `0` shared by both inputs
(vector hit `{id: 0, sim: 0.8}`, keyword hit `{id: 0}`) and a vector-only
hit `{id: 5, sim: 0.7}`, the fused output is `[{id: 5, ...}, {id: 0,
sim: 0.5}]`: the shared id `0` appears *after* the vector-only item (and as
a keyword-constructed record, not the vector record), refuting the claim
for arbitrary shared ids. -/
theorem fusion_rank_invariant_cex :
    fuse cexVecC1 cexKeyC1 5 = .ok
      [⟨some (.int 5), some (.float (7/10)), restB⟩,
       ⟨some (.int 0), some (.float (1/2)), restC⟩] ∧
    (∃ vr ∈ cexVecC1, pyEq (vrId vr) (.int 0) = true) ∧
    (∃ kr ∈ cexKeyC1, ∃ kid, kr.id? = some kid ∧ pyEq kid (.int 0) = true) ∧
    (∀ kr ∈ cexKeyC1, ∀ kid, kr.id? = some kid → pyEq kid (.int 5) = false) := by
  refine ⟨rfl, ⟨⟨some (.int 0), some (.float (4/5)), restA⟩, List.mem_cons_self _ _, by decide⟩,
    ⟨⟨some (.int 0), restC⟩, List.mem_cons_self _ _, .int 0, rfl, by decide⟩, ?_⟩
  intro kr hm kid hk
  rcases List.mem_singleton.mp hm with rfl
  cases hk
  decide

/-- Witness: the amended C1 theorem at one vector hit and one keyword hit
sharing the truthy id `7`. -/
theorem fusion_rank_invariant_amended_witness :
    ∃ l₁ l₂,
      ([⟨some (.int 7), some (.float (min 1 ((1/2) * (6/5)))), restA⟩] : List SearchHit)
        = l₁ ++ l₂ ∧
      (∀ o ∈ l₁, SharedHit [⟨some (.int 7), some (.float (1/2)), restA⟩]
        [⟨some (.int 7), restB⟩] o) ∧
      (∀ o ∈ l₂, ¬ SharedHit [⟨some (.int 7), some (.float (1/2)), restA⟩]
        [⟨some (.int 7), restB⟩] o) ∧
      (∀ x, CommonId [⟨some (.int 7), some (.float (1/2)), restA⟩]
        [⟨some (.int 7), restB⟩] x →
        l₂ = [] ∨ ∃ o ∈ l₁, pyEq (vrId o) x = true) :=
  fusion_rank_invariant_amended
    [⟨some (.int 7), some (.float (1/2)), restA⟩] [⟨some (.int 7), restB⟩] 1 _ rfl

/-- C10: every successfully fused item either carries a truthy id (the
intersection and vector-only passes only admit vector records with truthy
ids, so a vector hit whose id is missing, `None`, `0` or `""` never reaches
the output) or is a record constructed from a keyword hit (the keyword-only
pass applies no falsy-id filter).  Concretely, four vector hits with ids
`None`/missing/`0`/`""` fuse to the empty list, while a keyword-only hit
with the falsy id `""` is still appended with similarity `0.5`. -/
theorem fusion_falsy_id_filter :
    (∀ vs ks m out, fuse vs ks m = .ok out → ∀ o ∈ out,
      pyTruthy (vrId o) = true ∨ ∃ kr ∈ ks, ∃ kid, kr.id? = some kid ∧ o = mkKeyHit kid kr) ∧
    fuse falsyVecs [] 7 = .ok [] ∧
    fuse [] falsyKey 4 = .ok [mkKeyHit (.str "") ⟨some (.str ""), restA⟩] := by
  refine ⟨?_, rfl, rfl⟩
  intro vs ks m out h o ho
  obtain ⟨c1, s1, c3, s3, hp1, hp3, rfl⟩ := fuse_decomp h
  obtain ⟨⟨hinv1, hdist1⟩, ⟨t1, ht1eq, ht1i⟩, -⟩ :=
    pass1_spec vs ks [] [] c1 s1 hp1 empty_SeenCombInv empty_DistinctIds
  obtain ⟨⟨hinv2, hdist2⟩, ⟨t2, ht2eq, ht2i⟩, -⟩ := pass2_spec m vs c1 s1 hinv1 hdist1
  obtain ⟨⟨hinv3, hdist3⟩, ⟨t3, ht3eq, ht3i⟩, -⟩ :=
    pass3_spec m ks _ _ c3 s3 hp3 hinv2 hdist2
  have ho3 : o ∈ c3 := List.mem_of_mem_take ho
  rw [ht3eq, ht2eq] at ho3
  rcases List.mem_append.mp ho3 with h12 | h3
  · rcases List.mem_append.mp h12 with h1 | h2
    · have hot1 : o ∈ t1 := by
        rw [ht1eq] at h1
        simpa using h1
      obtain ⟨vr, hvr, kid, r, ⟨kr, hkr, hk⟩, hfeq, hmemv, hb, rfl⟩ := ht1i o hot1
      left
      rw [vrId_boostRecord, pyEq_truthy hfeq]
      exact pyMem_vector_ids_truthy hmemv
    · exact Or.inl (ht2i o h2).2.1
  · obtain ⟨⟨kr, hkr, kid, hk, rfl⟩, -⟩ := ht3i o h3
    exact Or.inr ⟨kr, hkr, kid, hk, rfl⟩

/-- Witness: the C10 theorem's universal part at one truthy-id vector hit. -/
theorem fusion_falsy_id_filter_witness :
    pyTruthy (vrId (⟨some (.int 5), some (.float (3/5)), restA⟩ : SearchHit)) = true ∨
      ∃ kr ∈ ([] : List KeyHit), ∃ kid, kr.id? = some kid ∧
        (⟨some (.int 5), some (.float (3/5)), restA⟩ : SearchHit) = mkKeyHit kid kr :=
  fusion_falsy_id_filter.1 [⟨some (.int 5), some (.float (3/5)), restA⟩] [] 9
    [⟨some (.int 5), some (.float (3/5)), restA⟩] rfl
    ⟨some (.int 5), some (.float (3/5)), restA⟩ (List.mem_singleton.mpr rfl)

/-- C2 (amended): the spec's scenario holds exactly (`0.8 · 1.2` clamps to
`24/25 = 0.96`), and for well-formed inputs whose ids are additionally
truthy (id present and not `None`/`0`/`""` — the original claim, which only
required fields present and numeric similarity, fails at the falsy id `0`,
see the counterexample): every fused item whose id occurs in both lists is
a vector record with similarity multiplied by `1.2` and clamped at `1`, and
every fused item whose id occurs only in the keyword list is the keyword
record with default similarity `0.5`. -/
theorem fusion_boost_amended :
    (fuse scenVec scenKey 3 = .ok
      [⟨some (.int 1), some (.float (min 1 ((4/5) * (6/5)))), restA⟩,
       ⟨some (.int 2), some (.float (3/5)), restB⟩,
       ⟨some (.int 3), some (.float (1/2)), restD⟩] ∧
      (min 1 ((4/5) * (6/5)) : Rat) = 24/25) ∧
    ∀ vs ks m,
      (∀ vr ∈ vs, ∃ x, vr.id? = some x ∧ pyTruthy x = true) →
      (∀ vr ∈ vs, ∃ q, pyToRat (simVal vr) = some q) →
      (∀ kr ∈ ks, ∃ x, kr.id? = some x ∧ pyTruthy x = true) →
      ∃ out, fuse vs ks m = .ok out ∧
        ∀ o ∈ out,
          ((∃ vr ∈ vs, pyEq (vrId vr) (vrId o) = true) ∧
            (∃ kr ∈ ks, ∃ kid, kr.id? = some kid ∧ pyEq kid (vrId o) = true) →
            ∃ vr ∈ vs, ∃ q, pyToRat (simVal vr) = some q ∧ vr.id? = o.id? ∧
              o = { vr with similarity? := some (.float (min 1 (q * (6/5)))) }) ∧
          ((∃ kr ∈ ks, ∃ kid, kr.id? = some kid ∧ pyEq kid (vrId o) = true) ∧
            ¬ (∃ vr ∈ vs, pyEq (vrId vr) (vrId o) = true) →
            ∃ kr ∈ ks, ∃ kid, kr.id? = some kid ∧ o = mkKeyHit kid kr) := by
  refine ⟨⟨rfl, by norm_num⟩, ?_⟩
  intro vs ks m h1 h2 h3
  have hkids : ∀ kr ∈ ks, ∃ kid, kr.id? = some kid := by
    intro kr hm
    obtain ⟨x, hx, -⟩ := h3 kr hm
    exact ⟨x, hx⟩
  obtain ⟨⟨c1, s1⟩, hp1⟩ := pass1_ok vs ks h2 [] [] hkids
  obtain ⟨c2, s2, hp2⟩ : ∃ a b, pass2 m vs c1 s1 = (a, b) := ⟨_, _, rfl⟩
  obtain ⟨⟨c3, s3⟩, hp3⟩ := pass3_ok m ks c2 s2 hkids
  refine ⟨c3.take m, ?_, ?_⟩
  · simp only [fuse, hp1, hp2, hp3]
  · obtain ⟨⟨hinv1, hdist1⟩, ⟨t1, ht1eq, ht1i⟩, ⟨u1, hu1⟩⟩ :=
      pass1_spec vs ks [] [] c1 s1 hp1 empty_SeenCombInv empty_DistinctIds
    have hq2 := pass2_spec m vs c1 s1 hinv1 hdist1
    rw [hp2] at hq2
    dsimp only at hq2
    obtain ⟨⟨hinv2, hdist2⟩, ⟨t2, ht2eq, ht2i⟩, ⟨u2, hu2⟩⟩ := hq2
    obtain ⟨⟨hinv3, hdist3⟩, ⟨t3, ht3eq, ht3i⟩, ⟨u3, hu3⟩⟩ :=
      pass3_spec m ks c2 s2 c3 s3 hp3 hinv2 hdist2
    intro o ho
    have ho3 : o ∈ c3 := List.mem_of_mem_take ho
    rw [ht3eq, ht2eq] at ho3
    constructor
    · rintro ⟨⟨vrw, hvrw, hvo⟩, ⟨krw, hkrw, kidw, hkw, hko⟩⟩
      have hxt : pyTruthy (vrId o) = true := by
        obtain ⟨xk, hxk, hxkt⟩ := h3 krw hkrw
        rw [hkw] at hxk
        injection hxk with hxe
        rw [← pyEq_truthy hko, hxe]
        exact hxkt
      have hxv : pyMem (vrId o) (vector_ids vs) = true :=
        pyMem_vector_ids_of_truthy hvrw hvo hxt
      have hs1 : pyMem (vrId o) s1 = true :=
        pass1_covers vs ks [] [] c1 s1 hp1 (vrId o) hxv
          (Or.inl ⟨krw, hkrw, kidw, hkw, hko⟩)
      rcases List.mem_append.mp ho3 with h12 | ht3m
      · rcases List.mem_append.mp h12 with h1m | h2m
        · have hot1 : o ∈ t1 := by
            rw [ht1eq] at h1m
            simpa using h1m
          obtain ⟨vr, hvr, kid, r, ⟨kr, hkr, hk⟩, hfeq, hmemv, hb, rfl⟩ := ht1i o hot1
          obtain ⟨q, hq⟩ := h2 vr hvr
          have hbq : boostSim (simVal vr) = .ok (min 1 (q * (6/5))) := by
            unfold boostSim
            rw [hq]
          rw [hbq] at hb
          injection hb with hre
          refine ⟨vr, hvr, q, hq, rfl, ?_⟩
          unfold boostRecord
          rw [hre]
        · obtain ⟨-, -, hof⟩ := ht2i o h2m
          rw [hof] at hs1
          cases hs1
      · obtain ⟨-, hof⟩ := ht3i o ht3m
        rw [hu2] at hof
        have hfl := pyMem_false_left hof
        rw [hfl] at hs1
        cases hs1
    · rintro ⟨⟨krw, hkrw, kidw, hkw, hko⟩, hnov⟩
      rcases List.mem_append.mp ho3 with h12 | ht3m
      · rcases List.mem_append.mp h12 with h1m | h2m
        · exfalso
          have hot1 : o ∈ t1 := by
            rw [ht1eq] at h1m
            simpa using h1m
          obtain ⟨vr, hvr, kid, r, -, hfeq, hmemv, hb, rfl⟩ := ht1i o hot1
          exact hnov ⟨vr, hvr, by rw [vrId_boostRecord]; exact pyEq_refl _⟩
        · exfalso
          obtain ⟨hov, -, -⟩ := ht2i o h2m
          exact hnov ⟨o, hov, pyEq_refl _⟩
      · obtain ⟨⟨kr, hkr, kid, hk, rfl⟩, -⟩ := ht3i o ht3m
        exact ⟨kr, hkr, kid, hk, rfl⟩

/-- C2 counterexample: the well-formed pair `vector = [{id: 0, sim: 0.8}]`,
`keyword = [{id: 0}]` (all required fields present, numeric similarity)
shares the id `0`, yet the single fused item is the keyword-constructed
record with similarity `0.5` — not the vector record with similarity
`0.8 · 1.2` — because `0` is falsy and is excluded from the intersection
id set. -/
theorem fusion_boost_cex :
    fuse cexVecC2 cexKeyC2 3 = .ok [⟨some (.int 0), some (.float (1/2)), restB⟩] ∧
    (∀ vr ∈ cexVecC2, ∃ x, vr.id? = some x) ∧
    (∀ vr ∈ cexVecC2, ∃ q, pyToRat (simVal vr) = some q) ∧
    (∀ kr ∈ cexKeyC2, ∃ x, kr.id? = some x) ∧
    (∃ vr ∈ cexVecC2, pyEq (vrId vr) (.int 0) = true) ∧
    (∃ kr ∈ cexKeyC2, ∃ kid, kr.id? = some kid ∧ pyEq kid (.int 0) = true) ∧
    ¬ (⟨some (.int 0), some (.float (1/2)), restB⟩ : SearchHit)
        = ⟨some (.int 0), some (.float (min 1 ((4/5) * (6/5)))), restA⟩ := by
  refine ⟨rfl, ?_, ?_, ?_, ?_, ?_, ?_⟩
  · intro vr hm
    rcases List.mem_singleton.mp hm with rfl
    exact ⟨.int 0, rfl⟩
  · intro vr hm
    rcases List.mem_singleton.mp hm with rfl
    exact ⟨4/5, rfl⟩
  · intro kr hm
    rcases List.mem_singleton.mp hm with rfl
    exact ⟨.int 0, rfl⟩
  · exact ⟨⟨some (.int 0), some (.float (4/5)), restA⟩, List.mem_cons_self _ _, by decide⟩
  · exact ⟨⟨some (.int 0), restB⟩, List.mem_cons_self _ _, .int 0, rfl, by decide⟩
  · intro h
    injection h with h1 h2 h3
    exact absurd h3 (by decide)

/-- Witness: the amended C2 theorem's universal part at one well-formed
truthy-id vector hit and no keyword hits. -/
theorem fusion_boost_amended_witness :
    ∃ out, fuse [⟨some (.int 9), some (.float (1/2)), restC⟩] ([] : List KeyHit) 2
        = .ok out ∧
      ∀ o ∈ out,
        ((∃ vr ∈ [(⟨some (.int 9), some (.float (1/2)), restC⟩ : SearchHit)],
            pyEq (vrId vr) (vrId o) = true) ∧
          (∃ kr ∈ ([] : List KeyHit), ∃ kid, kr.id? = some kid ∧
            pyEq kid (vrId o) = true) →
          ∃ vr ∈ [(⟨some (.int 9), some (.float (1/2)), restC⟩ : SearchHit)],
            ∃ q, pyToRat (simVal vr) = some q ∧ vr.id? = o.id? ∧
              o = { vr with similarity? := some (.float (min 1 (q * (6/5)))) }) ∧
        ((∃ kr ∈ ([] : List KeyHit), ∃ kid, kr.id? = some kid ∧
            pyEq kid (vrId o) = true) ∧
          ¬ (∃ vr ∈ [(⟨some (.int 9), some (.float (1/2)), restC⟩ : SearchHit)],
            pyEq (vrId vr) (vrId o) = true) →
          ∃ kr ∈ ([] : List KeyHit), ∃ kid, kr.id? = some kid ∧ o = mkKeyHit kid kr) :=
  fusion_boost_amended.2 [⟨some (.int 9), some (.float (1/2)), restC⟩] [] 2
    (fun vr hm => by
      rcases List.mem_singleton.mp hm with rfl
      exact ⟨.int 9, rfl, by decide⟩)
    (fun vr hm => by
      rcases List.mem_singleton.mp hm with rfl
      exact ⟨1/2, rfl⟩)
    (fun kr hm => absurd hm (List.not_mem_nil kr))
